/-
Verification of the Stonks backtest engine.

Shallow embedding of `src/strategies/moving_average.py` and
`src/strategies/base_strategy.py`.  Prices are modelled as exact
rationals; a pandas value that is NaN (or otherwise non-finite) is
modelled as `none : Option ℚ`.  Pandas comparison semantics
(`NaN cmp x = False`), `fillna`, `shift`, `diff`, `cumprod` with
`skipna=True`, `expanding().max()` and `min()` with `skipna=True` are
embedded explicitly.  A Python exception is modelled with `Except`.
-/
import Mathlib

namespace Stonks

/-- A Python exception raised by the embedded code: `ValueError` from
strategy construction, `IndexError` from `.iloc[-1]` on an empty series. -/
inductive PyErr where
  | valueError : PyErr
  | indexError : PyErr
deriving DecidableEq

/-! ## Moving-average signal generation (`moving_average.py`) -/

/-- Embeds `MovingAverageStrategy.__init__` (moving_average.py lines 38-67): the
constructor validates the windows (raising `ValueError`, the structured
configuration failure) before any price data is seen; it stores the pair.
It first rejects `short_window >= long_window`, then `short_window < 2`. -/
def mkMovingAverageStrategy (short_window long_window : ℤ) :
    Except PyErr (ℤ × ℤ) :=
  if long_window ≤ short_window then .error .valueError
  else if short_window < 2 then .error .valueError
  else .ok (short_window, long_window)

/-- Embeds `Close.rolling(window=w, min_periods=w).mean()` at index `i`:
the trailing simple moving average over exactly `w` observations,
undefined (NaN, i.e. `none`) for the first `w - 1` indices. -/
def movingAvg (w : ℕ) (closes : List ℚ) (i : ℕ) : Option ℚ :=
  if w ≤ i + 1 ∧ i < closes.length then
    some (((closes.drop (i + 1 - w)).take w).sum / (w : ℚ))
  else none

/-- Pandas `>` on possibly-NaN values: any comparison with NaN is `False`. -/
def gtO : Option ℚ → Option ℚ → Bool
  | some a, some b => decide (b < a)
  | _, _ => false

/-- Pandas `<` on possibly-NaN values. -/
def ltO : Option ℚ → Option ℚ → Bool
  | some a, some b => decide (a < b)
  | _, _ => false

/-- Pandas `<=` on possibly-NaN values. -/
def leO : Option ℚ → Option ℚ → Bool
  | some a, some b => decide (a ≤ b)
  | _, _ => false

/-- Pandas `>=` on possibly-NaN values. -/
def geO : Option ℚ → Option ℚ → Bool
  | some a, some b => decide (b ≤ a)
  | _, _ => false

/-- The `Signal` value at index `i` (moving_average.py lines 97-113):
+1 on a golden cross (`MA_short > MA_long` now, `MA_short.shift(1) <=
MA_long.shift(1)` before), -1 on a death cross, 0 otherwise.  `shift(1)`
at index 0 yields NaN, and comparisons with NaN are `False`. -/
def crossSignal (s l : ℕ) (closes : List ℚ) (i : ℕ) : ℤ :=
  let prevS := if i = 0 then none else movingAvg s closes (i - 1)
  let prevL := if i = 0 then none else movingAvg l closes (i - 1)
  if gtO (movingAvg s closes i) (movingAvg l closes i) && leO prevS prevL then 1
  else if ltO (movingAvg s closes i) (movingAvg l closes i) && geO prevS prevL then -1
  else 0

/-- The `Signal` column produced by `generate_signals`
(moving_average.py lines 79-113): all zeros when the series is shorter
than the long window, otherwise the crossover signals. -/
def signalsList (s l : ℕ) (closes : List ℚ) : List ℤ :=
  if closes.length < l then List.replicate closes.length 0
  else (List.range closes.length).map (crossSignal s l closes)

/-- One step of the position loop (moving_average.py lines 119-126):
a buy signal sets the running position to 1, a sell signal to 0,
anything else keeps it. -/
def positionStep (cur : ℤ) (s : ℤ) : ℤ :=
  if s = 1 then 1 else if s = -1 then 0 else cur

/-- The position loop (moving_average.py lines 119-126) with an explicit
running position. -/
def positionsAux (cur : ℤ) : List ℤ → List ℤ
  | [] => []
  | s :: rest =>
      positionStep cur s :: positionsAux (positionStep cur s) rest

/-- The `Position` column: the loop started from `current_position = 0`. -/
def positionsFromSignals (sigs : List ℤ) : List ℤ := positionsAux 0 sigs

/-! ## Return pipeline (`base_strategy.py`, `_calculate_returns`) -/

/-- Embeds `Close.pct_change()` at index `i` (base_strategy.py line 124):
NaN at index 0, else `close[i]/close[i-1] - 1`.  A division by a zero
price is non-finite in pandas and is modelled as `none`. -/
def marketReturn (closes : List ℚ) (i : ℕ) : Option ℚ :=
  if i = 0 then none
  else
    match closes[i]?, closes[i - 1]? with
    | some c, some p => if p = 0 then none else some (c / p - 1)
    | _, _ => none

/-- Embeds `Position.shift(1).fillna(0)` at index `i` (base_strategy.py
line 128): the position of the previous day, 0 at index 0. -/
def positionLagged (pos : List ℤ) (i : ℕ) : Option ℚ :=
  if i = 0 then some 0 else (pos[i - 1]?).map fun z => (z : ℚ)

/-- Embeds `Strategy_Returns = Position_Lagged * Returns` (line 131). -/
def strategyReturn (closes : List ℚ) (pos : List ℤ) (i : ℕ) : Option ℚ := do
  let p ← positionLagged pos i
  let r ← marketReturn closes i
  pure (p * r)

/-- Embeds `Position_Change = Position_Lagged.diff().abs()` (line 134):
NaN at index 0. -/
def positionChange (pos : List ℤ) (i : ℕ) : Option ℚ :=
  if i = 0 then none
  else do
    let a ← positionLagged pos i
    let b ← positionLagged pos (i - 1)
    pure |a - b|

/-- Embeds `Commission_Cost = Position_Change * commission` (line 135). -/
def commissionCost (pos : List ℤ) (comm : ℚ) (i : ℕ) : Option ℚ :=
  (positionChange pos i).map (· * comm)

/-- Embeds `Strategy_Returns_Net = Strategy_Returns - Commission_Cost`
(line 136); NaN-propagating subtraction. -/
def strategyReturnNet (closes : List ℚ) (pos : List ℤ) (comm : ℚ) (i : ℕ) :
    Option ℚ := do
  let s ← strategyReturn closes pos i
  let c ← commissionCost pos comm i
  pure (s - c)

/-- Pandas `Series.cumprod()` with its default `skipna=True`: NaN
entries stay NaN in the output but do not poison the running product. -/
def skipCumprodAux (acc : ℚ) : List (Option ℚ) → List (Option ℚ)
  | [] => []
  | none :: rest => none :: skipCumprodAux acc rest
  | some v :: rest => some (acc * v) :: skipCumprodAux (acc * v) rest

/-- Embeds `Cumulative_Returns = (1 + Strategy_Returns_Net).cumprod()`
(base_strategy.py line 139). -/
def cumulativeReturns (closes : List ℚ) (pos : List ℤ) (comm : ℚ) :
    List (Option ℚ) :=
  skipCumprodAux 1
    ((List.range closes.length).map fun i =>
      (strategyReturnNet closes pos comm i).map (1 + ·))

/-- Embeds `Portfolio_Value = initial_capital * Cumulative_Returns`
(base_strategy.py line 140). -/
def portfolioValue (closes : List ℚ) (pos : List ℤ) (comm cap : ℚ) :
    List (Option ℚ) :=
  (cumulativeReturns closes pos comm).map (Option.map (cap * ·))

/-- Plain running product (no NaN present in the input). -/
def cumprodAux (acc : ℚ) : List ℚ → List ℚ
  | [] => []
  | v :: rest => (acc * v) :: cumprodAux (acc * v) rest

/-- Embeds `BuyHold_Returns = Returns.fillna(0)` (base_strategy.py line 143). -/
def buyholdReturn (closes : List ℚ) (i : ℕ) : ℚ :=
  (marketReturn closes i).getD 0

/-- Embeds `BuyHold_Cumulative = (1 + BuyHold_Returns).cumprod()` (line 144). -/
def buyholdCumulative (closes : List ℚ) : List ℚ :=
  cumprodAux 1 ((List.range closes.length).map fun i => 1 + buyholdReturn closes i)

/-- Embeds `BuyHold_Value = initial_capital * BuyHold_Cumulative` (line 145). -/
def buyholdValue (closes : List ℚ) (cap : ℚ) : List ℚ :=
  (buyholdCumulative closes).map (cap * ·)

/-! ## Metrics (`base_strategy.py`, `_calculate_metrics` and helpers) -/

/-- Embeds `Series.mean()` of the values of a series: sum over count. -/
def seriesMean (l : List ℚ) : ℚ := l.sum / (l.length : ℚ)

/-- The square of `Series.std()` (sample standard deviation, `ddof=1`):
NaN (`none`) when fewer than two values exist. -/
def sampleVar (l : List ℚ) : Option ℚ :=
  if l.length < 2 then none
  else some ((l.map fun x => (x - seriesMean l) ^ 2).sum / ((l.length : ℚ) - 1))

/-- Embeds `_calculate_sharpe_ratio` (base_strategy.py lines 192-200): if
`returns.std() == 0` return 0; else `(mean*252 - risk_free_rate) /
(std * sqrt 252)`.  `std == 0` is checked as `variance = 0` (the float
standard deviation is zero exactly when the variance is); when the
standard deviation is NaN (fewer than two returns) the comparison with 0
is `False` and the division yields NaN, modelled as `none`. -/
noncomputable def sharpeRatioF (l : List ℚ) (risk_free_rate : ℚ) : Option ℝ :=
  match sampleVar l with
  | none => none
  | some v =>
      if v = 0 then some 0
      else some (((seriesMean l * 252 - risk_free_rate : ℚ) : ℝ) /
        (Real.sqrt (v : ℝ) * Real.sqrt 252))

/-- Embeds `equity_curve.expanding().max()` (base_strategy.py line 188) with
pandas `skipna`: the running maximum of the defined values seen so far,
NaN while no defined value has appeared. -/
def expandingMaxAux (cur : Option ℚ) : List (Option ℚ) → List (Option ℚ)
  | [] => []
  | none :: rest => cur :: expandingMaxAux cur rest
  | some v :: rest =>
      let m := match cur with | none => v | some c => max c v
      some m :: expandingMaxAux (some m) rest

/-- Embeds `expanding().max()` started with no value seen. -/
def expandingMax (l : List (Option ℚ)) : List (Option ℚ) :=
  expandingMaxAux none l

/-- Embeds `(equity_curve - peak) / peak` (base_strategy.py line 189),
elementwise and NaN-propagating; a division by a zero peak is
non-finite in pandas and modelled as `none`. -/
def drawdownList (l : List (Option ℚ)) : List (Option ℚ) :=
  List.zipWith
    (fun e p => do
      let ev ← e
      let pv ← p
      if pv = 0 then none else pure ((ev - pv) / pv))
    l (expandingMax l)

/-- Running minimum over the defined entries, after the first defined
value has been seen. -/
def minSkipnaAux (acc : ℚ) : List (Option ℚ) → ℚ
  | [] => acc
  | none :: rest => minSkipnaAux acc rest
  | some v :: rest => minSkipnaAux (min acc v) rest

/-- Embeds `Series.min()` with its default `skipna=True`: the minimum of the
defined entries, NaN when none exist. -/
def minSkipna : List (Option ℚ) → Option ℚ
  | [] => none
  | none :: rest => minSkipna rest
  | some v :: rest => some (minSkipnaAux v rest)

/-- Embeds `_calculate_max_drawdown` (base_strategy.py lines 186-190). -/
def maxDrawdownF (equity_curve : List (Option ℚ)) : Option ℚ :=
  minSkipna (drawdownList equity_curve)

/-- Formula from the claim (spec side, for comparison with the code):
the running maximum of the portfolio values up to index `i`. -/
def specRunningMax (pv : List ℚ) (i : ℕ) : ℚ :=
  (pv.take (i + 1)).foldl max (pv.getD 0 0)

/-- Formula from the claim (spec side, for comparison with the code):
the relative drawdown from the running peak at index `i`. -/
def specDrawdown (pv : List ℚ) (i : ℕ) : ℚ :=
  (pv.getD i 0 - specRunningMax pv i) / specRunningMax pv i

/-- The `Option`-aware subtraction of a pandas scalar and a constant. -/
def subConst (x : Option ℚ) (c : ℚ) : Option ℚ := x.map (· - c)

/-- The metrics dictionary returned by `_calculate_metrics`
(base_strategy.py lines 175-184). -/
structure Metrics where
  total_return : Option ℚ
  buyhold_return : ℚ
  excess_return : Option ℚ
  volatility : Option ℝ
  sharpe_ratio : Option ℝ
  max_drawdown : Option ℚ
  win_rate : ℚ
  total_trades : ℕ

/-- Embeds `series.iloc[-1]`: the last entry, raising `IndexError` on an empty
series. -/
def ilocLastO (l : List (Option ℚ)) : Except PyErr (Option ℚ) :=
  match l.getLast? with
  | none => .error .indexError
  | some v => .ok v

/-- Embeds `series.iloc[-1]` on a series without NaN. -/
def ilocLastQ (l : List ℚ) : Except PyErr ℚ :=
  match l.getLast? with
  | none => .error .indexError
  | some v => .ok v

/-- Embeds `_calculate_metrics` (base_strategy.py lines 149-184) composed with
`_calculate_returns` (lines 111-147): the strategy returns are the net
returns with NaN dropped (`dropna()`); `total_return` reads
`Cumulative_Returns.iloc[-1]`, which raises `IndexError` on an empty
input, and otherwise is NaN-propagating. -/
noncomputable def calcMetrics (closes : List ℚ) (pos : List ℤ) (cap comm : ℚ) :
    Except PyErr Metrics := do
  let netList := (List.range closes.length).map (strategyReturnNet closes pos comm)
  let strategy_returns := netList.filterMap id
  let cumLast ← ilocLastO (cumulativeReturns closes pos comm)
  let bhLast ← ilocLastQ (buyholdCumulative closes)
  let total_trades := (strategy_returns.filter fun r => r ≠ 0).length
  let winning_trades := (strategy_returns.filter fun r => 0 < r).length
  pure
    { total_return := subConst cumLast 1
      buyhold_return := bhLast - 1
      excess_return := (subConst cumLast 1).map (· - (bhLast - 1))
      volatility := (sampleVar strategy_returns).map fun v =>
        Real.sqrt (v : ℝ) * Real.sqrt 252
      sharpe_ratio := sharpeRatioF strategy_returns (1 / 50)
      max_drawdown := maxDrawdownF (portfolioValue closes pos comm cap)
      win_rate :=
        if 0 < total_trades then (winning_trades : ℚ) / (total_trades : ℚ) else 0
      total_trades := total_trades }

/-- Embeds `MovingAverageStrategy.backtest` end to end (base_strategy.py lines
67-109): generate the signals and positions, run the return pipeline and
compute the metrics.  No validation of `initial_capital` or `commission`
appears anywhere on this path. -/
noncomputable def maBacktest (s l : ℕ) (closes : List ℚ) (cap comm : ℚ) :
    Except PyErr Metrics :=
  calcMetrics closes (positionsFromSignals (signalsList s l closes)) cap comm

/-! ## DataFrame object model (for the mutation claim) -/

/-- The caller-visible DataFrame: the price column plus the columns the
pipeline may have attached to the same object. -/
structure Frame where
  close : List ℚ
  signal : Option (List ℤ)
  position : Option (List ℤ)
  maShort : Option (List (Option ℚ))
  maLong : Option (List (Option ℚ))
deriving DecidableEq

/-- The value of the frame after `generate_signals` ran on it
(moving_average.py lines 69-135): `Signal` and `Position` columns are
always attached; the two moving-average columns only when the series is
at least `long_window` long. -/
def generateSignalsFrame (s l : ℕ) (f : Frame) : Frame :=
  if f.close.length < l then
    { f with
      signal := some (signalsList s l f.close)
      position := some (positionsFromSignals (signalsList s l f.close)) }
  else
    { f with
      signal := some (signalsList s l f.close)
      position := some (positionsFromSignals (signalsList s l f.close))
      maShort := some ((List.range f.close.length).map (movingAvg s f.close))
      maLong := some ((List.range f.close.length).map (movingAvg l f.close)) }

/-- The caller's frame after a direct call to `generate_signals`: the
method assigns columns to the very object it received
(`data['Signal'] = 0`, `data.loc[...]`, `data.iloc[...]`), so the
caller's object is the mutated frame. -/
def generateSignalsCallerFrame (s l : ℕ) (f : Frame) : Frame :=
  generateSignalsFrame s l f

/-- The caller's frame after `backtest`: `backtest` passes
`data.copy()` to `generate_signals` (base_strategy.py line 87), so every
mutation lands on the copy and the caller's object keeps its value. -/
def backtestCallerFrame (s l : ℕ) (f : Frame) : Frame := f

/-! ## Theorems -/

/-- C3: no look-ahead.  The net strategy return at index `i` is a
function only of position values at indices strictly below `i` and
close prices at indices at most `i`: two runs whose inputs agree there,
whatever the later closes (and positions) are, produce identical
`Strategy_Returns_Net` at every index up to `i`. -/
theorem no_lookahead_strategy_return_net (c₁ c₂ : List ℚ) (p₁ p₂ : List ℤ)
    (comm : ℚ) (i : ℕ)
    (hc : ∀ k, k ≤ i → c₁[k]? = c₂[k]?)
    (hp : ∀ k, k < i → p₁[k]? = p₂[k]?) :
    ∀ j, j ≤ i → strategyReturnNet c₁ p₁ comm j = strategyReturnNet c₂ p₂ comm j := by
  intro j hj
  rcases j with _ | n
  · simp [strategyReturnNet, strategyReturn, marketReturn, positionLagged,
      commissionCost, positionChange]
  · have e1 : c₁[n + 1]? = c₂[n + 1]? := hc _ hj
    have e2 : c₁[n]? = c₂[n]? := hc _ (le_trans (Nat.le_succ n) hj)
    have e3 : p₁[n]? = p₂[n]? := hp _ (lt_of_lt_of_le (Nat.lt_succ_self n) hj)
    have e4 : p₁[n - 1]? = p₂[n - 1]? :=
      hp _ (lt_of_lt_of_le (Nat.lt_succ_of_le (Nat.sub_le n 1)) hj)
    simp only [strategyReturnNet, strategyReturn, marketReturn, positionLagged,
      commissionCost, positionChange, Nat.succ_ne_zero, if_false,
      Nat.add_sub_cancel, e1, e2, e3, e4]

/-- Witness for the no-look-ahead theorem at a concrete pair of inputs
that share a prefix and differ afterwards. -/
theorem no_lookahead_strategy_return_net_witness :
    strategyReturnNet [10, 12, 11, 99] [1, 1, 0, 1] (1 / 1000) 2 =
      strategyReturnNet [10, 12, 11, 3] [1, 1, 1, 0] (1 / 1000) 2 :=
  no_lookahead_strategy_return_net [10, 12, 11, 99] [10, 12, 11, 3]
    [1, 1, 0, 1] [1, 1, 1, 0] (1 / 1000) 2
    (by decide) (by decide) 2 (le_refl 2)

/-- C7: the Sharpe-ratio policy.  When the sample standard deviation of
the net returns is zero (equivalently, the sample variance is zero) the
Sharpe ratio is exactly 0 — a defined value, not NaN, infinity or an
error; otherwise it is `(mean*252 - risk_free_rate) / (std * sqrt 252)`
with the risk-free rate defaulting to `0.02 = 1/50`. -/
theorem sharpe_degenerate_policy (l : List ℚ) :
    (sampleVar l = some 0 → sharpeRatioF l (1 / 50) = some 0) ∧
    (∀ v : ℚ, sampleVar l = some v → v ≠ 0 →
      sharpeRatioF l (1 / 50) =
        some (((seriesMean l * 252 - 1 / 50 : ℚ) : ℝ) /
          (Real.sqrt (v : ℝ) * Real.sqrt 252))) := by
  constructor
  · intro h
    unfold sharpeRatioF
    rw [h]
    simp
  · intro v hv hne
    unfold sharpeRatioF
    rw [hv]
    simp [hne]

/-- Witness for the Sharpe policy: a constant return series gets Sharpe
exactly 0, a non-constant one gets the annualized quotient. -/
theorem sharpe_degenerate_policy_witness :
    sharpeRatioF [1 / 2, 1 / 2] (1 / 50) = some 0 ∧
    sharpeRatioF [0, 1 / 10] (1 / 50) =
      some (((seriesMean [0, 1 / 10] * 252 - 1 / 50 : ℚ) : ℝ) /
        (Real.sqrt ((1 / 200 : ℚ) : ℝ) * Real.sqrt 252)) :=
  ⟨(sharpe_degenerate_policy [1 / 2, 1 / 2]).1
      (by norm_num [sampleVar, seriesMean]),
   (sharpe_degenerate_policy [0, 1 / 10]).2 (1 / 200)
      (by norm_num [sampleVar, seriesMean]) (by norm_num)⟩

/-- C9 counterexample: `generate_signals` mutates the very frame its
caller handed it — after a direct call the caller's DataFrame has
acquired a `Signal` column, so the series it consumed is not left
unchanged. -/
theorem generate_signals_mutates_caller :
    generateSignalsCallerFrame 2 3 ⟨[1, 2, 4], none, none, none, none⟩ ≠
      ⟨[1, 2, 4], none, none, none, none⟩ := by
  decide

/-- C9 amended: `backtest` does leave the caller's series unchanged
(it hands `generate_signals` a copy), but `generate_signals` itself
mutates the frame it receives in place, attaching `Signal`/`Position`
(and moving-average) columns to the caller's object and returning that
same object. -/
theorem backtest_pure_but_generate_signals_mutates (s l : ℕ) (f : Frame)
    (h : f.signal = none) :
    backtestCallerFrame s l f = f ∧ generateSignalsCallerFrame s l f ≠ f := by
  refine ⟨rfl, fun he => ?_⟩
  have hs : (generateSignalsCallerFrame s l f).signal =
      some (signalsList s l f.close) := by
    unfold generateSignalsCallerFrame generateSignalsFrame
    split <;> rfl
  rw [he, h] at hs
  exact Option.noConfusion hs

/-- Witness for the amended mutation claim at a concrete frame. -/
theorem backtest_pure_but_generate_signals_mutates_witness :
    backtestCallerFrame 2 3 ⟨[5, 7], none, none, none, none⟩ =
        ⟨[5, 7], none, none, none, none⟩ ∧
      generateSignalsCallerFrame 2 3 ⟨[5, 7], none, none, none, none⟩ ≠
        ⟨[5, 7], none, none, none, none⟩ :=
  backtest_pure_but_generate_signals_mutates 2 3
    ⟨[5, 7], none, none, none, none⟩ rfl

/-- C10: for any nonempty price series the strategy equity curve starts
undefined — the net return at index 0 is NaN and propagates into
`Cumulative_Returns[0]` and `Portfolio_Value[0]` — while the
buy-and-hold curve starts at exactly `initial_capital`, because the
undefined first market return is coerced to 0 by `fillna(0)` for the
buy-and-hold product only. -/
theorem first_row_nan_strategy_defined_buyhold (closes : List ℚ)
    (pos : List ℤ) (comm cap : ℚ) (h : closes ≠ []) :
    strategyReturnNet closes pos comm 0 = none ∧
    (cumulativeReturns closes pos comm)[0]? = some none ∧
    (portfolioValue closes pos comm cap)[0]? = some none ∧
    (buyholdValue closes cap)[0]? = some cap := by
  obtain ⟨c, rest, rfl⟩ := List.exists_cons_of_ne_nil h
  have hnet : strategyReturnNet (c :: rest) pos comm 0 = none := by
    simp [strategyReturnNet, strategyReturn, marketReturn]
  have hrange : List.range (c :: rest).length =
      0 :: (List.range rest.length).map Nat.succ := by
    simp [List.range_succ_eq_map]
  refine ⟨hnet, ?_, ?_, ?_⟩
  · unfold cumulativeReturns
    rw [hrange]
    simp [hnet, skipCumprodAux]
  · unfold portfolioValue cumulativeReturns
    rw [hrange]
    simp [hnet, skipCumprodAux]
  · unfold buyholdValue buyholdCumulative
    rw [hrange]
    simp [buyholdReturn, marketReturn, cumprodAux]

/-- The running skip-NaN product has the length of its input. -/
lemma skipCumprodAux_length (l : List (Option ℚ)) :
    ∀ acc : ℚ, (skipCumprodAux acc l).length = l.length := by
  induction l with
  | nil => intro acc; rfl
  | cons hd tl ih =>
      intro acc
      cases hd with
      | none => simpa [skipCumprodAux] using ih acc
      | some v => simpa [skipCumprodAux] using ih (acc * v)

/-- Embeds `iloc[-1]` succeeding on every nonempty series. -/
lemma ilocLastO_ok_of_ne_nil (l : List (Option ℚ)) (h : l ≠ []) :
    ∃ v, ilocLastO l = .ok v := by
  unfold ilocLastO
  cases hl : l.getLast? with
  | none => exact absurd (List.getLast?_eq_none_iff.mp hl) h
  | some v => exact ⟨v, rfl⟩

/-- The plain running product has the length of its input. -/
lemma cumprodAux_length (l : List ℚ) :
    ∀ acc : ℚ, (cumprodAux acc l).length = l.length := by
  induction l with
  | nil => intro acc; rfl
  | cons hd tl ih => intro acc; simpa [cumprodAux] using ih (acc * hd)

/-- Embeds `iloc[-1]` on a NaN-free series succeeding when it is nonempty. -/
lemma ilocLastQ_ok_of_ne_nil (l : List ℚ) (h : l ≠ []) :
    ∃ v, ilocLastQ l = .ok v := by
  unfold ilocLastQ
  cases hl : l.getLast? with
  | none => exact absurd (List.getLast?_eq_none_iff.mp hl) h
  | some v => exact ⟨v, rfl⟩

/-- C1 counterexample: `backtest` called with `initial_capital = -100`
and `commission = 5` (both invalid per the claim) raises nothing and
runs the whole computation on the price series, returning a metrics
dictionary whose total return is defined. -/
theorem invalid_capital_commission_accepted :
    (maBacktest 2 3 [1, 2, 4] (-100) 5).map Metrics.total_return =
      .ok (some 0) := by
  norm_num [maBacktest, calcMetrics, cumulativeReturns, ilocLastO, ilocLastQ,
    buyholdCumulative, buyholdReturn, cumprodAux, skipCumprodAux, List.range_succ,
    signalsList, crossSignal, movingAvg, gtO, ltO, leO, geO,
    positionsFromSignals, positionsAux, positionStep,
    strategyReturnNet, strategyReturn, marketReturn, positionLagged,
    positionChange, commissionCost, subConst, Except.map, Bind.bind, Except.bind,
    Pure.pure, Except.pure]

/-- C1 amended: only the window parameters are validated, and only at
strategy construction (raising `ValueError`, before any price data is
seen); `backtest` performs no validation of `initial_capital` or
`commission` — it runs to a result for every capital and commission
whenever the series is nonempty. -/
theorem parameter_validation_actual :
    (∀ short long : ℤ, short < 2 ∨ long ≤ short →
      mkMovingAverageStrategy short long = .error .valueError) ∧
    (∀ (cap comm : ℚ) (s l : ℕ) (closes : List ℚ), closes ≠ [] →
      ∃ r : Metrics, maBacktest s l closes cap comm = .ok r) := by
  constructor
  · intro short long h
    rcases h with h | h <;>
      · unfold mkMovingAverageStrategy
        split_ifs with h1 h2 <;> first | rfl | omega
  · intro cap comm s l closes hne
    have hlen : closes.length ≠ 0 := fun h0 => hne (List.eq_nil_of_length_eq_zero h0)
    have hcum :
        cumulativeReturns closes (positionsFromSignals (signalsList s l closes))
          comm ≠ [] := by
      intro hc
      have := congrArg List.length hc
      rw [cumulativeReturns, skipCumprodAux_length] at this
      simp at this
      exact hne this
    have hbh : buyholdCumulative closes ≠ [] := by
      intro hc
      have := congrArg List.length hc
      rw [buyholdCumulative, cumprodAux_length] at this
      simp at this
      exact hne this
    obtain ⟨v, hv⟩ := ilocLastO_ok_of_ne_nil _ hcum
    obtain ⟨w, hw⟩ := ilocLastQ_ok_of_ne_nil _ hbh
    unfold maBacktest calcMetrics
    rw [hv, hw]
    exact ⟨_, rfl⟩

/-- Witness for the amended validation claim: a concrete invalid window
pair is rejected at construction, and a concrete backtest with negative
capital and out-of-range commission still succeeds. -/
theorem parameter_validation_actual_witness :
    mkMovingAverageStrategy 1 5 = .error .valueError ∧
    ∃ r : Metrics, maBacktest 2 3 [1, 2] (-100) 5 = .ok r :=
  ⟨parameter_validation_actual.1 1 5 (Or.inl (by norm_num)),
   parameter_validation_actual.2 (-100) 5 2 3 [1, 2] (by simp)⟩

/-- Comparison against NaN on the right is `False`. -/
@[simp] lemma leO_none_right (x : Option ℚ) : leO x none = false := by
  cases x <;> rfl

/-- Comparison against NaN on the right is `False`. -/
@[simp] lemma geO_none_right (x : Option ℚ) : geO x none = false := by
  cases x <;> rfl

/-- Comparison against NaN on the left is `False`. -/
@[simp] lemma leO_none_left (x : Option ℚ) : leO none x = false := by
  cases x <;> rfl

/-- Comparison against NaN on the left is `False`. -/
@[simp] lemma geO_none_left (x : Option ℚ) : geO none x = false := by
  cases x <;> rfl

/-- The crossover signal takes no value besides -1, 0 and 1. -/
lemma crossSignal_values (s l : ℕ) (closes : List ℚ) (i : ℕ) :
    crossSignal s l closes i = 1 ∨ crossSignal s l closes i = -1 ∨
      crossSignal s l closes i = 0 := by
  unfold crossSignal
  dsimp only
  split_ifs <;> norm_num

/-- Golden-cross characterization of `Signal = 1`. -/
lemma crossSignal_eq_one_iff (s l : ℕ) (closes : List ℚ) (i : ℕ) :
    crossSignal s l closes i = 1 ↔
      1 ≤ i ∧ ∃ a b a2 b2,
        movingAvg s closes (i - 1) = some a2 ∧
        movingAvg l closes (i - 1) = some b2 ∧
        movingAvg s closes i = some a ∧
        movingAvg l closes i = some b ∧
        a2 ≤ b2 ∧ b < a := by
  unfold crossSignal
  rcases i with _ | n
  · simp
  · simp only [Nat.succ_ne_zero, if_false, Nat.add_sub_cancel, Nat.le_add_left,
      true_and]
    cases h1 : movingAvg s closes (n + 1) <;>
      cases h2 : movingAvg l closes (n + 1) <;>
        cases h3 : movingAvg s closes n <;>
          cases h4 : movingAvg l closes n <;>
            simp only [gtO, ltO, leO, geO, Bool.false_and, Bool.and_false,
              Bool.true_and, Bool.and_true]
    case some.some.some.some a b a2 b2 =>
      constructor
      · intro hif
        split_ifs at hif with hA hB
        all_goals
          first
            | (simp only [Bool.and_eq_true, decide_eq_true_eq] at hA
               exact ⟨a, b, a2, b2, rfl, rfl, rfl, rfl, hA.2, hA.1⟩)
            | exact absurd hif (by norm_num)
      · rintro ⟨a3, b3, a4, b4, ha2, hb2, ha, hbv, hle, hlt⟩
        obtain rfl := Option.some.inj ha2
        obtain rfl := Option.some.inj hb2
        obtain rfl := Option.some.inj ha
        obtain rfl := Option.some.inj hbv
        split_ifs with hA hB
        · rfl
        · simp only [Bool.and_eq_true, decide_eq_true_eq] at hA
          exact absurd ⟨hlt, hle⟩ hA
        · simp only [Bool.and_eq_true, decide_eq_true_eq] at hA
          exact absurd ⟨hlt, hle⟩ hA
    all_goals simp

/-- Death-cross characterization of `Signal = -1`. -/
lemma crossSignal_eq_neg_one_iff (s l : ℕ) (closes : List ℚ) (i : ℕ) :
    crossSignal s l closes i = -1 ↔
      1 ≤ i ∧ ∃ a b a2 b2,
        movingAvg s closes (i - 1) = some a2 ∧
        movingAvg l closes (i - 1) = some b2 ∧
        movingAvg s closes i = some a ∧
        movingAvg l closes i = some b ∧
        b2 ≤ a2 ∧ a < b := by
  unfold crossSignal
  rcases i with _ | n
  · simp
  · simp only [Nat.succ_ne_zero, if_false, Nat.add_sub_cancel, Nat.le_add_left,
      true_and]
    cases h1 : movingAvg s closes (n + 1) <;>
      cases h2 : movingAvg l closes (n + 1) <;>
        cases h3 : movingAvg s closes n <;>
          cases h4 : movingAvg l closes n <;>
            simp only [gtO, ltO, leO, geO, Bool.false_and, Bool.and_false,
              Bool.true_and, Bool.and_true]
    case some.some.some.some a b a2 b2 =>
      constructor
      · intro hif
        split_ifs at hif with hA hB
        all_goals
          first
            | (simp only [Bool.and_eq_true, decide_eq_true_eq] at hB
               exact ⟨a, b, a2, b2, rfl, rfl, rfl, rfl, hB.2, hB.1⟩)
            | exact absurd hif (by norm_num)
      · rintro ⟨a3, b3, a4, b4, ha2, hb2, ha, hbv, hle, hlt⟩
        obtain rfl := Option.some.inj ha2
        obtain rfl := Option.some.inj hb2
        obtain rfl := Option.some.inj ha
        obtain rfl := Option.some.inj hbv
        split_ifs with hA hB
        · simp only [Bool.and_eq_true, decide_eq_true_eq] at hA
          exact absurd hA.1 (lt_asymm hlt)
        · rfl
        · simp only [Bool.and_eq_true, decide_eq_true_eq] at hB
          exact absurd ⟨hlt, hle⟩ hB
    all_goals simp

/-- Embeds `getD` on an all-zero signal column. -/
lemma getD_replicate_zero (n i : ℕ) : (List.replicate n (0 : ℤ)).getD i 0 = 0 := by
  rcases Nat.lt_or_ge i n with h | h
  · rw [List.getD_eq_getElem _ _ (by simpa using h)]
    simp
  · rw [List.getD_eq_default _ _ (by simpa using h)]

/-- Embeds `getD` on a column built from `List.range`. -/
lemma getD_map_range (f : ℕ → ℤ) (n i : ℕ) (h : i < n) :
    ((List.range n).map f).getD i 0 = f i := by
  rw [List.getD_eq_getElem _ _ (by simpa using h)]
  simp

/-- A defined long moving average forces the index inside the series and
past the warm-up. -/
lemma movingAvg_some_imp (w : ℕ) (closes : List ℚ) (i : ℕ) (b : ℚ)
    (h : movingAvg w closes i = some b) : w ≤ i + 1 ∧ i < closes.length := by
  by_contra hc
  unfold movingAvg at h
  rw [if_neg hc] at h
  exact Option.noConfusion h

/-- C6: crossover signal definition.  A +1 fires at `i` iff both moving
averages are defined at `i-1` and `i`, the short one is strictly above
the long one at `i` and was at or below it at `i-1`; symmetrically for
-1; a tie of the two averages never fires anything; and the first index
at which both averages become defined (`i = long_window - 1`) is never
itself a crossing point. -/
theorem crossover_signal_characterization (closes : List ℚ) (s l i : ℕ) :
    ((signalsList s l closes).getD i 0 = 1 ↔
      1 ≤ i ∧ ∃ a b a2 b2,
        movingAvg s closes (i - 1) = some a2 ∧
        movingAvg l closes (i - 1) = some b2 ∧
        movingAvg s closes i = some a ∧
        movingAvg l closes i = some b ∧
        a2 ≤ b2 ∧ b < a) ∧
    ((signalsList s l closes).getD i 0 = -1 ↔
      1 ≤ i ∧ ∃ a b a2 b2,
        movingAvg s closes (i - 1) = some a2 ∧
        movingAvg l closes (i - 1) = some b2 ∧
        movingAvg s closes i = some a ∧
        movingAvg l closes i = some b ∧
        b2 ≤ a2 ∧ a < b) ∧
    (movingAvg s closes i = movingAvg l closes i →
      (signalsList s l closes).getD i 0 = 0) ∧
    (i + 1 = l → (signalsList s l closes).getD i 0 = 0) := by
  by_cases hb : closes.length < l
  · have hz : (signalsList s l closes).getD i 0 = 0 := by
      unfold signalsList
      rw [if_pos hb]
      exact getD_replicate_zero _ _
    rw [hz]
    refine ⟨⟨fun h => absurd h (by norm_num), ?_⟩,
      ⟨fun h => absurd h (by norm_num), ?_⟩, fun _ => rfl, fun _ => rfl⟩ <;>
      · rintro ⟨-, a, b, a2, b2, -, -, -, hmb, -, -⟩
        obtain ⟨hw, hlen⟩ := movingAvg_some_imp l closes i b hmb
        omega
  · by_cases hi : i < closes.length
    · have hs : (signalsList s l closes).getD i 0 = crossSignal s l closes i := by
        unfold signalsList
        rw [if_neg hb]
        exact getD_map_range _ _ _ hi
      rw [hs]
      refine ⟨crossSignal_eq_one_iff s l closes i,
        crossSignal_eq_neg_one_iff s l closes i, ?_, ?_⟩
      · intro htie
        rcases crossSignal_values s l closes i with h | h | h
        · obtain ⟨-, a, b, a2, b2, -, -, ha, hbb, -, hlt⟩ :=
            (crossSignal_eq_one_iff s l closes i).mp h
          rw [htie, hbb] at ha
          cases ha
          exact absurd hlt (lt_irrefl _)
        · obtain ⟨-, a, b, a2, b2, -, -, ha, hbb, -, hlt⟩ :=
            (crossSignal_eq_neg_one_iff s l closes i).mp h
          rw [htie, hbb] at ha
          cases ha
          exact absurd hlt (lt_irrefl _)
        · exact h
      · intro hfirst
        rcases crossSignal_values s l closes i with h | h | h
        · obtain ⟨hi1, a, b, a2, b2, -, hmb, -, -, -, -⟩ :=
            (crossSignal_eq_one_iff s l closes i).mp h
          obtain ⟨hw, -⟩ := movingAvg_some_imp l closes (i - 1) b2 hmb
          omega
        · obtain ⟨hi1, a, b, a2, b2, -, hmb, -, -, -, -⟩ :=
            (crossSignal_eq_neg_one_iff s l closes i).mp h
          obtain ⟨hw, -⟩ := movingAvg_some_imp l closes (i - 1) b2 hmb
          omega
        · exact h
    · have hz : (signalsList s l closes).getD i 0 = 0 := by
        unfold signalsList
        rw [if_neg hb, List.getD_eq_default _ _ (by simpa using Nat.le_of_not_lt hi)]
      rw [hz]
      refine ⟨⟨fun h => absurd h (by norm_num), ?_⟩,
        ⟨fun h => absurd h (by norm_num), ?_⟩, fun _ => rfl, fun _ => rfl⟩ <;>
        · rintro ⟨-, a, b, a2, b2, -, -, -, hmb, -, -⟩
          obtain ⟨-, hlen⟩ := movingAvg_some_imp l closes i b hmb
          omega

/-- Witness for the crossover characterization: a concrete death cross
fires, a tie stays silent, and the first defined pair is silent. -/
theorem crossover_signal_characterization_witness :
    (signalsList 2 3 [10, 10, 20, 20, 5, 5]).getD 4 0 = -1 ∧
    (signalsList 2 3 [7, 7, 7, 7]).getD 3 0 = 0 ∧
    (signalsList 2 3 [10, 10, 20, 20, 5, 5]).getD 2 0 = 0 :=
  ⟨(crossover_signal_characterization [10, 10, 20, 20, 5, 5] 2 3 4).2.1.mpr
      ⟨by norm_num,
       25 / 2, 15, 20, 50 / 3,
       by norm_num [movingAvg, List.drop, List.take],
       by norm_num [movingAvg, List.drop, List.take],
       by norm_num [movingAvg, List.drop, List.take],
       by norm_num [movingAvg, List.drop, List.take],
       by norm_num, by norm_num⟩,
   (crossover_signal_characterization [7, 7, 7, 7] 2 3 3).2.2.1
      (by norm_num [movingAvg, List.drop, List.take]),
   (crossover_signal_characterization [10, 10, 20, 20, 5, 5] 2 3 2).2.2.2 rfl⟩

/-- The signal column is aligned 1:1 with the price series. -/
lemma signalsList_length (s l : ℕ) (closes : List ℚ) :
    (signalsList s l closes).length = closes.length := by
  unfold signalsList
  split_ifs <;> simp

/-- The position loop output is aligned 1:1 with the signal column. -/
lemma positionsAux_length (sigs : List ℤ) :
    ∀ cur : ℤ, (positionsAux cur sigs).length = sigs.length := by
  induction sigs with
  | nil => intro cur; rfl
  | cons s rest ih => intro cur; simpa [positionsAux] using ih _

/-- The position at index `i` is the loop state after folding the first
`i + 1` signals. -/
lemma positionsAux_getD (sigs : List ℤ) :
    ∀ (cur : ℤ) (i : ℕ), i < sigs.length →
      (positionsAux cur sigs).getD i 0 = (sigs.take (i + 1)).foldl positionStep cur := by
  induction sigs with
  | nil => intro cur i h; simp at h
  | cons s rest ih =>
      intro cur i h
      cases i with
      | zero => simp [positionsAux]
      | succ n =>
          simp only [positionsAux, List.getD_cons_succ]
          rw [ih (positionStep cur s) n (by simpa using h)]
          simp

/-- Folding the position step keeps the state in `{0, 1}`. -/
lemma foldl_positionStep_mem (m : List ℤ) :
    ∀ cur : ℤ, cur = 0 ∨ cur = 1 →
      m.foldl positionStep cur = 0 ∨ m.foldl positionStep cur = 1 := by
  induction m with
  | nil => intro cur h; simpa using h
  | cons s t ih =>
      intro cur h
      simp only [List.foldl_cons]
      apply ih
      unfold positionStep
      split_ifs <;> simp [h]

/-- The position at index 0 is the step applied to the initial cash
state. -/
lemma positions_getD_zero (sigs : List ℤ) (h : 0 < sigs.length) :
    (positionsFromSignals sigs).getD 0 0 = positionStep 0 (sigs.getD 0 0) := by
  unfold positionsFromSignals
  rw [positionsAux_getD sigs 0 0 h]
  rcases sigs with _ | ⟨s, rest⟩
  · simp at h
  · simp

/-- The position recurrence: each day applies the step to the previous
state and the day's signal. -/
lemma positions_getD_succ (sigs : List ℤ) (i : ℕ) (h : i + 1 < sigs.length) :
    (positionsFromSignals sigs).getD (i + 1) 0 =
      positionStep ((positionsFromSignals sigs).getD i 0) (sigs.getD (i + 1) 0) := by
  unfold positionsFromSignals
  rw [positionsAux_getD sigs 0 (i + 1) h,
    positionsAux_getD sigs 0 i (lt_trans (Nat.lt_succ_self i) h)]
  rw [List.take_succ, List.foldl_append]
  rw [List.getElem?_eq_getElem h, List.getD_eq_getElem sigs 0 h]
  simp

/-- The position is long exactly when some earlier buy signal has not
been cancelled by a later sell signal. -/
lemma positions_one_iff (sigs : List ℤ) :
    ∀ i, i < sigs.length →
      ((positionsFromSignals sigs).getD i 0 = 1 ↔
        ∃ j, j ≤ i ∧ sigs.getD j 0 = 1 ∧
          ∀ k, j < k → k ≤ i → sigs.getD k 0 ≠ -1) := by
  intro i
  induction i with
  | zero =>
      intro h
      rw [positions_getD_zero sigs h]
      unfold positionStep
      split_ifs with h1 h2
      · exact ⟨fun _ => ⟨0, le_refl 0, h1, fun k hk1 hk2 => by omega⟩, fun _ => rfl⟩
      · refine ⟨fun hc => absurd hc (by norm_num), ?_⟩
        rintro ⟨j, hj, hj1, -⟩
        interval_cases j
        rw [hj1] at h2
        exact absurd h2 (by norm_num)
      · refine ⟨fun hc => absurd hc (by norm_num), ?_⟩
        rintro ⟨j, hj, hj1, -⟩
        interval_cases j
        exact absurd hj1 h1
  | succ n ihn =>
      intro h
      have hn : n < sigs.length := lt_trans (Nat.lt_succ_self n) h
      rw [positions_getD_succ sigs n h]
      have ih := ihn hn
      unfold positionStep
      split_ifs with h1 h2
      · exact ⟨fun _ => ⟨n + 1, le_refl _, h1, fun k hk1 hk2 => by omega⟩,
          fun _ => rfl⟩
      · refine ⟨fun hc => absurd hc (by norm_num), ?_⟩
        rintro ⟨j, hj, hj1, hk⟩
        rcases Nat.lt_or_ge j (n + 1) with hjn | hjn
        · exact absurd h2 (hk (n + 1) (by omega) (le_refl _))
        · have hj2 : j = n + 1 := by omega
          rw [hj2, h2] at hj1
          exact absurd hj1 (by norm_num)
      · rw [ih]
        constructor
        · rintro ⟨j, hj, hj1, hk⟩
          refine ⟨j, le_trans hj (Nat.le_succ n), hj1, fun k hk1 hk2 => ?_⟩
          rcases Nat.lt_or_ge k (n + 1) with hkn | hkn
          · exact hk k hk1 (by omega)
          · have : k = n + 1 := by omega
            rw [this]
            exact h2
        · rintro ⟨j, hj, hj1, hk⟩
          have hjn : j ≤ n := by
            rcases Nat.lt_or_ge j (n + 1) with hjn | hjn
            · omega
            · exfalso
              have : j = n + 1 := by omega
              rw [this] at hj1
              exact h1 hj1
          exact ⟨j, hjn, hj1, fun k hk1 hk2 => hk k hk1 (by omega)⟩

/-- The step on a sell signal is cash. -/
lemma positionStep_sell (cur : ℤ) : positionStep cur (-1) = 0 := by
  unfold positionStep
  norm_num

/-- The step on a hold signal keeps the state. -/
lemma positionStep_hold (cur s : ℤ) (h1 : s ≠ 1) (h2 : s ≠ -1) :
    positionStep cur s = cur := by
  unfold positionStep
  rw [if_neg h1, if_neg h2]

/-- C5: the position is a right-continuous step function of the signal,
always in `{0, 1}`: it is 1 exactly when a buy signal at some `j ≤ i`
is not followed by a sell signal in `(j, i]` (so 1 from the first buy
until the first subsequent sell), it drops to 0 exactly on the
sell-signal index, it is 1 on a buy-signal index, it is 0 while no
signal has fired, and it is unchanged on days with no signal. -/
theorem position_step_function (closes : List ℚ) (s l i : ℕ)
    (hi : i < closes.length) :
    ((positionsFromSignals (signalsList s l closes)).getD i 0 = 0 ∨
      (positionsFromSignals (signalsList s l closes)).getD i 0 = 1) ∧
    ((positionsFromSignals (signalsList s l closes)).getD i 0 = 1 ↔
      ∃ j, j ≤ i ∧ (signalsList s l closes).getD j 0 = 1 ∧
        ∀ k, j < k → k ≤ i → (signalsList s l closes).getD k 0 ≠ -1) ∧
    ((signalsList s l closes).getD i 0 = 1 →
      (positionsFromSignals (signalsList s l closes)).getD i 0 = 1) ∧
    ((signalsList s l closes).getD i 0 = -1 →
      (positionsFromSignals (signalsList s l closes)).getD i 0 = 0) ∧
    ((∀ j, j ≤ i → (signalsList s l closes).getD j 0 = 0) →
      (positionsFromSignals (signalsList s l closes)).getD i 0 = 0) ∧
    (∀ h2 : i + 1 < closes.length, (signalsList s l closes).getD (i + 1) 0 = 0 →
      (positionsFromSignals (signalsList s l closes)).getD (i + 1) 0 =
        (positionsFromSignals (signalsList s l closes)).getD i 0) := by
  have hlen : i < (signalsList s l closes).length := by
    rw [signalsList_length]
    exact hi
  have hone := positions_one_iff (signalsList s l closes) i hlen
  have hmem :
      (positionsFromSignals (signalsList s l closes)).getD i 0 = 0 ∨
        (positionsFromSignals (signalsList s l closes)).getD i 0 = 1 := by
    unfold positionsFromSignals
    rw [positionsAux_getD _ 0 i hlen]
    exact foldl_positionStep_mem _ 0 (Or.inl rfl)
  refine ⟨hmem, hone, ?_, ?_, ?_, ?_⟩
  · intro hsig
    exact hone.mpr ⟨i, le_refl i, hsig, fun k hk1 hk2 => by omega⟩
  · intro hsig
    rcases Nat.eq_zero_or_pos i with rfl | hpos
    · rw [positions_getD_zero _ hlen, hsig, positionStep_sell]
    · obtain ⟨n, rfl⟩ := Nat.exists_eq_succ_of_ne_zero (Nat.pos_iff_ne_zero.mp hpos)
      rw [positions_getD_succ _ n hlen, hsig, positionStep_sell]
  · intro hz
    rcases hmem with h0 | h1
    · exact h0
    · obtain ⟨j, hj, hj1, -⟩ := hone.mp h1
      rw [hz j hj] at hj1
      exact absurd hj1 (by norm_num)
  · intro h2 hsig
    have hlen2 : i + 1 < (signalsList s l closes).length := by
      rw [signalsList_length]
      exact h2
    rw [positions_getD_succ _ i hlen2, hsig,
      positionStep_hold _ 0 (by norm_num) (by norm_num)]

/-- Witness for the position step function: on a concrete series the
death cross at index 4 puts the position at 0 on that very index. -/
theorem position_step_function_witness :
    (positionsFromSignals (signalsList 2 3 [10, 10, 20, 20, 5, 5])).getD 4 0 = 0 :=
  (position_step_function [10, 10, 20, 20, 5, 5] 2 3 4 (by norm_num)).2.2.2.1
    (by norm_num [signalsList, crossSignal, movingAvg, gtO, ltO, leO, geO,
      List.range_succ])

/-- Entry `i` of the skip-NaN running product: defined exactly when the
input entry is, and then equal to the accumulator times the product of
the defined entries among the first `i + 1`. -/
lemma skipCumprodAux_getElem (l : List (Option ℚ)) :
    ∀ (acc : ℚ) (i : ℕ), i < l.length →
      (skipCumprodAux acc l)[i]? =
        (l[i]?).map (Option.map fun _ =>
          acc * ((l.take (i + 1)).map fun o => o.getD 1).prod) := by
  induction l with
  | nil => intro acc i h; simp at h
  | cons hd tl ih =>
      intro acc i h
      cases hd with
      | none =>
          cases i with
          | zero => simp [skipCumprodAux]
          | succ n =>
              simp only [skipCumprodAux, List.getElem?_cons_succ]
              rw [ih acc n (by simpa using h)]
              simp [List.take_succ_cons]
      | some v =>
          cases i with
          | zero => simp [skipCumprodAux]
          | succ n =>
              simp only [skipCumprodAux, List.getElem?_cons_succ]
              rw [ih (acc * v) n (by simpa using h)]
              simp [List.take_succ_cons, mul_assoc]

/-- Away from index 0 the net return of a valid input is a defined
value. -/
lemma strategyReturnNet_some (closes : List ℚ) (pos : List ℤ) (comm : ℚ)
    (k : ℕ) (h1 : 1 ≤ k) (h2 : k < closes.length)
    (hlen : pos.length = closes.length) (hpos : ∀ x ∈ closes, 0 < x) :
    ∃ v, strategyReturnNet closes pos comm k = some v := by
  have hk0 : k ≠ 0 := by omega
  have hklt : k - 1 < closes.length := by omega
  have hc : closes[k]? = some closes[k] := List.getElem?_eq_getElem h2
  have hp : closes[k - 1]? = some (closes.get ⟨k - 1, hklt⟩) :=
    List.getElem?_eq_getElem hklt
  have hpne : closes.get ⟨k - 1, hklt⟩ ≠ 0 :=
    ne_of_gt (hpos _ (List.getElem?_mem hp))
  have hmr : marketReturn closes k = some (closes[k] / closes.get ⟨k - 1, hklt⟩ - 1) := by
    unfold marketReturn
    rw [if_neg hk0, hc, hp]
    simpa using hpne
  have hklt2 : k - 1 < pos.length := by omega
  have hz : pos[k - 1]? = some (pos.get ⟨k - 1, hklt2⟩) :=
    List.getElem?_eq_getElem hklt2
  have hpl : positionLagged pos k = some ((pos.get ⟨k - 1, hklt2⟩ : ℤ) : ℚ) := by
    unfold positionLagged
    rw [if_neg hk0, hz]
    rfl
  obtain ⟨w, hw⟩ : ∃ w, positionLagged pos (k - 1) = some w := by
    unfold positionLagged
    by_cases hk1 : k - 1 = 0
    · rw [if_pos hk1]
      exact ⟨0, rfl⟩
    · rw [if_neg hk1]
      have hlt3 : k - 1 - 1 < pos.length := by omega
      exact ⟨_, by rw [List.getElem?_eq_getElem hlt3]; rfl⟩
  have hsome : (strategyReturnNet closes pos comm k).isSome = true := by
    simp [strategyReturnNet, strategyReturn, commissionCost, positionChange,
      hpl, hmr, hw, hk0]
  exact Option.isSome_iff_exists.mp hsome

/-- The net return at index 0 is always NaN. -/
lemma strategyReturnNet_zero (closes : List ℚ) (pos : List ℤ) (comm : ℚ) :
    strategyReturnNet closes pos comm 0 = none := by
  simp [strategyReturnNet, strategyReturn, marketReturn]

/-- C4: the cumulative-return identity.  For every valid input (aligned
positive price series), positive initial capital and every index `i` at
or after the first defined net return (index 1; index 0 is the NaN
warm-up row where the product is seeded), the portfolio value equals
`initial_capital` times the product over `k ≤ i` of
`1 + strategy_return_net[k]`, the undefined index-0 factor counting
as 1. -/
theorem cumulative_return_identity (closes : List ℚ) (pos : List ℤ)
    (comm cap : ℚ) (hcap : 0 < cap) (hlen : pos.length = closes.length)
    (hpos : ∀ x ∈ closes, 0 < x) (i : ℕ) (h1 : 1 ≤ i)
    (hi : i < closes.length) :
    (portfolioValue closes pos comm cap)[i]? =
      some (some (cap *
        ((List.range (i + 1)).map fun k =>
          1 + (strategyReturnNet closes pos comm k).getD 0).prod)) := by
  have hLlen : i <
      ((List.range closes.length).map fun k =>
        (strategyReturnNet closes pos comm k).map (1 + ·)).length := by
    simpa using hi
  unfold portfolioValue cumulativeReturns
  rw [List.getElem?_map, skipCumprodAux_getElem _ 1 i hLlen]
  obtain ⟨vi, hvi⟩ := strategyReturnNet_some closes pos comm i h1 hi hlen hpos
  have hgi : ((List.range closes.length).map fun k =>
      (strategyReturnNet closes pos comm k).map (1 + ·))[i]? =
        some (some (1 + vi)) := by
    rw [List.getElem?_map, List.getElem?_range hi]
    simp [hvi]
  rw [hgi]
  have htake : ((List.range closes.length).map fun k =>
      (strategyReturnNet closes pos comm k).map (1 + ·)).take (i + 1) =
        (List.range (i + 1)).map fun k =>
          (strategyReturnNet closes pos comm k).map (1 + ·) := by
    rw [← List.map_take, List.take_range, Nat.min_eq_left (by omega)]
  rw [htake, List.map_map]
  have hmaps : ((List.range (i + 1)).map
        ((fun o => o.getD 1) ∘ fun k =>
          (strategyReturnNet closes pos comm k).map (1 + ·))) =
      (List.range (i + 1)).map fun k =>
        1 + (strategyReturnNet closes pos comm k).getD 0 := by
    apply List.map_congr_left
    intro k hk
    rw [List.mem_range] at hk
    rcases Nat.eq_zero_or_pos k with rfl | hkpos
    · rw [Function.comp_apply, strategyReturnNet_zero]
      simp
    · obtain ⟨vk, hvk⟩ :=
        strategyReturnNet_some closes pos comm k (by omega) (by omega) hlen hpos
      rw [Function.comp_apply, hvk]
      simp
  rw [hmaps]
  simp

/-- Witness for the cumulative-return identity on a concrete valid
input. -/
theorem cumulative_return_identity_witness :
    (portfolioValue [10, 11] [1, 1] (1 / 1000) 10000)[1]? =
      some (some (10000 *
        ((List.range 2).map fun k =>
          1 + (strategyReturnNet [10, 11] [1, 1] (1 / 1000) k).getD 0).prod)) :=
  cumulative_return_identity [10, 11] [1, 1] (1 / 1000) 10000 (by norm_num)
    rfl (by norm_num) 1 (le_refl 1) (by norm_num)

/-- The seed is below a max fold. -/
lemma foldl_max_init (l : List ℚ) : ∀ c : ℚ, c ≤ l.foldl max c := by
  induction l with
  | nil => intro c; exact le_refl c
  | cons h t ih => intro c; exact le_trans (le_max_left c h) (ih (max c h))

/-- Every member is below a max fold. -/
lemma foldl_max_mem (l : List ℚ) : ∀ (c x : ℚ), x ∈ l → x ≤ l.foldl max c := by
  induction l with
  | nil => intro c x hx; simp at hx
  | cons h t ih =>
      intro c x hx
      rcases List.mem_cons.mp hx with rfl | hx
      · exact le_trans (le_max_right c x) (foldl_max_init t (max c x))
      · exact ih (max c h) x hx

/-- A max fold is the seed or a member. -/
lemma foldl_max_choice (l : List ℚ) : ∀ c : ℚ,
    l.foldl max c = c ∨ l.foldl max c ∈ l := by
  induction l with
  | nil => intro c; exact Or.inl rfl
  | cons h t ih =>
      intro c
      rcases ih (max c h) with he | hm
      · rw [List.foldl_cons, he]
        rcases max_choice c h with h1 | h1
        · exact Or.inl h1
        · exact Or.inr (by rw [h1]; exact List.mem_cons_self h t)
      · exact Or.inr (List.mem_cons_of_mem h hm)

/-- A min fold is below its seed. -/
lemma foldl_min_init (l : List ℚ) : ∀ c : ℚ, l.foldl min c ≤ c := by
  induction l with
  | nil => intro c; exact le_refl c
  | cons h t ih => intro c; exact le_trans (ih (min c h)) (min_le_left c h)

/-- A min fold is below every member. -/
lemma foldl_min_mem (l : List ℚ) : ∀ (c x : ℚ), x ∈ l → l.foldl min c ≤ x := by
  induction l with
  | nil => intro c x hx; simp at hx
  | cons h t ih =>
      intro c x hx
      rcases List.mem_cons.mp hx with rfl | hx
      · exact le_trans (foldl_min_init t (min c x)) (min_le_right c x)
      · exact ih (min c h) x hx

/-- A min fold is the seed or a member. -/
lemma foldl_min_choice (l : List ℚ) : ∀ c : ℚ,
    l.foldl min c = c ∨ l.foldl min c ∈ l := by
  induction l with
  | nil => intro c; exact Or.inl rfl
  | cons h t ih =>
      intro c
      rcases ih (min c h) with he | hm
      · rw [List.foldl_cons, he]
        rcases min_choice c h with h1 | h1
        · exact Or.inl h1
        · exact Or.inr (by rw [h1]; exact List.mem_cons_self h t)
      · exact Or.inr (List.mem_cons_of_mem h hm)

/-- The expanding maximum of a NaN-free tail, with a value already
seen. -/
lemma expandingMaxAux_getElem (t : List ℚ) : ∀ (c : ℚ) (i : ℕ), i < t.length →
    (expandingMaxAux (some c) (t.map some))[i]? =
      some (some ((t.take (i + 1)).foldl max c)) := by
  induction t with
  | nil => intro c i h; simp at h
  | cons hd tl ih =>
      intro c i h
      cases i with
      | zero => simp [expandingMaxAux]
      | succ n =>
          simp only [List.map_cons, expandingMaxAux, List.getElem?_cons_succ]
          rw [ih (max c hd) n (by simpa using h)]
          simp [List.take_succ_cons]

/-- Entry `i` of the expanding maximum of a NaN-free series is the
running maximum of the claim's formula. -/
lemma expandingMax_getElem (pv : List ℚ) (i : ℕ) (h : i < pv.length) :
    (expandingMax (pv.map some))[i]? = some (some (specRunningMax pv i)) := by
  unfold expandingMax specRunningMax
  rcases pv with _ | ⟨hd, t⟩
  · simp at h
  · cases i with
    | zero => simp [expandingMaxAux]
    | succ n =>
        simp only [List.map_cons, expandingMaxAux, List.getElem?_cons_succ]
        rw [expandingMaxAux_getElem t hd n (by simpa using h)]
        simp [List.take_succ_cons]

/-- The expanding maximum preserves length. -/
lemma expandingMaxAux_length (l : List (Option ℚ)) :
    ∀ cur : Option ℚ, (expandingMaxAux cur l).length = l.length := by
  induction l with
  | nil => intro cur; rfl
  | cons hd tl ih =>
      intro cur
      cases hd with
      | none => simpa [expandingMaxAux] using ih cur
      | some v => simpa [expandingMaxAux] using ih _

/-- The running maximum is positive on a positive series. -/
lemma specRunningMax_pos (pv : List ℚ) (i : ℕ) (h : i < pv.length)
    (hpos : ∀ x ∈ pv, 0 < x) : 0 < specRunningMax pv i := by
  unfold specRunningMax
  rcases pv with _ | ⟨hd, t⟩
  · simp at h
  · calc (0 : ℚ) < hd := hpos hd (List.mem_cons_self hd t)
      _ ≤ _ := by
        have : ((hd :: t).getD 0 0) = hd := rfl
        rw [this]
        exact foldl_max_init _ hd

/-- Each value is below its running maximum. -/
lemma getD_le_specRunningMax (pv : List ℚ) (i : ℕ) (h : i < pv.length) :
    pv.getD i 0 ≤ specRunningMax pv i := by
  unfold specRunningMax
  apply foldl_max_mem
  have htk : (pv.take (i + 1))[i]? = pv[i]? := by
    rw [List.getElem?_take]
    simp
  have : pv[i]? = some (pv.getD i 0) := by
    rw [List.getD_eq_getElem pv 0 h]
    exact List.getElem?_eq_getElem h
  exact List.getElem?_mem (htk.trans this)

/-- The running-max recurrence. -/
lemma specRunningMax_succ (pv : List ℚ) (i : ℕ) (h : i + 1 < pv.length) :
    specRunningMax pv (i + 1) = max (specRunningMax pv i) (pv.getD (i + 1) 0) := by
  unfold specRunningMax
  rw [List.take_succ, List.foldl_append, List.getElem?_eq_getElem h,
    List.getD_eq_getElem pv 0 h]
  simp

/-- The drawdown at index 0 is exactly 0. -/
lemma specDrawdown_zero (pv : List ℚ) (h : pv ≠ []) : specDrawdown pv 0 = 0 := by
  obtain ⟨hd, t, rfl⟩ := List.exists_cons_of_ne_nil h
  unfold specDrawdown specRunningMax
  simp

/-- The drawdown is never positive on a positive series. -/
lemma specDrawdown_nonpos (pv : List ℚ) (i : ℕ) (h : i < pv.length)
    (hpos : ∀ x ∈ pv, 0 < x) : specDrawdown pv i ≤ 0 := by
  unfold specDrawdown
  have h1 := getD_le_specRunningMax pv i h
  have h2 := specRunningMax_pos pv i h hpos
  exact div_nonpos_of_nonpos_of_nonneg (sub_nonpos.mpr h1) (le_of_lt h2)

/-- A zero drawdown means the value sits at its running peak. -/
lemma specDrawdown_eq_zero_imp (pv : List ℚ) (i : ℕ) (h : i < pv.length)
    (hpos : ∀ x ∈ pv, 0 < x) (hz : specDrawdown pv i = 0) :
    pv.getD i 0 = specRunningMax pv i := by
  unfold specDrawdown at hz
  have h2 := specRunningMax_pos pv i h hpos
  rcases div_eq_zero_iff.mp hz with hnum | hden
  · exact sub_eq_zero.mp hnum
  · exact absurd hden (ne_of_gt h2)

/-- The drawdown series of a NaN-free positive series is the claim's
formula at every index. -/
lemma drawdownList_map_some (pv : List ℚ) (hpos : ∀ x ∈ pv, 0 < x) :
    drawdownList (pv.map some) =
      (List.range pv.length).map fun i => some (specDrawdown pv i) := by
  have hlen : (drawdownList (pv.map some)).length = pv.length := by
    unfold drawdownList expandingMax
    rw [List.length_zipWith, expandingMaxAux_length]
    simp
  apply List.ext_getElem?
  intro i
  by_cases h : i < pv.length
  · have h1 : (pv.map some)[i]? = some (some (pv.getD i 0)) := by
      rw [List.getElem?_map, List.getD_eq_getElem pv 0 h,
        List.getElem?_eq_getElem h]
      rfl
    have h2 := expandingMax_getElem pv i h
    have hr := specRunningMax_pos pv i h hpos
    unfold drawdownList
    rw [List.getElem?_zipWith', h1, h2, List.getElem?_map,
      List.getElem?_range h]
    simp [hr.ne', specDrawdown]
  · rw [List.getElem?_eq_none (by rw [hlen]; omega),
      List.getElem?_eq_none (by simpa using Nat.le_of_not_lt h)]

/-- The skip-NaN running minimum of a NaN-free tail is a min fold. -/
lemma minSkipnaAux_map_some (t : List ℚ) : ∀ a : ℚ,
    minSkipnaAux a (t.map some) = t.foldl min a := by
  induction t with
  | nil => intro a; rfl
  | cons h tl ih => intro a; simpa [minSkipnaAux] using ih (min a h)

/-- The skip-NaN minimum of a NaN-free indexed series. -/
lemma minSkipna_range_map (g : ℕ → ℚ) (n : ℕ) :
    minSkipna ((List.range (n + 1)).map fun i => some (g i)) =
      some (((List.range n).map fun j => g (j + 1)).foldl min (g 0)) := by
  rw [List.range_succ_eq_map, List.map_cons, List.map_map]
  have hcomp : ((fun i => some (g i)) ∘ Nat.succ) = fun j => some (g (j + 1)) := by
    funext j
    rfl
  have hsplit : ((List.range n).map fun j => some (g (j + 1))) =
      ((List.range n).map fun j => g (j + 1)).map some := by
    rw [List.map_map]
    rfl
  rw [hcomp, hsplit]
  simp only [minSkipna]
  rw [minSkipnaAux_map_some]

/-- The running maximum at index 0 is the first value. -/
lemma specRunningMax_zero (pv : List ℚ) (h : pv ≠ []) :
    specRunningMax pv 0 = pv.getD 0 0 := by
  obtain ⟨hd, t, rfl⟩ := List.exists_cons_of_ne_nil h
  simp [specRunningMax]

/-- On a non-decreasing series the running maximum is the current
value. -/
lemma specRunningMax_eq_of_monotone (pv : List ℚ) (hne : pv ≠ [])
    (hmono : ∀ i, i + 1 < pv.length → pv.getD i 0 ≤ pv.getD (i + 1) 0) :
    ∀ i, i < pv.length → specRunningMax pv i = pv.getD i 0 := by
  intro i
  induction i with
  | zero => intro h; exact specRunningMax_zero pv hne
  | succ n ih =>
      intro h
      rw [specRunningMax_succ pv n h, ih (by omega)]
      exact max_eq_right (hmono n h)

/-- C8: the drawdown bound.  On every nonempty positive portfolio-value
series, `_calculate_max_drawdown` returns a defined value `m` that is
the minimum over `i` of `(pv[i] - running_max[i]) / running_max[i]`,
is never positive, and is 0 exactly when the series is non-decreasing
throughout. -/
theorem max_drawdown_bound (pv : List ℚ) (hne : pv ≠ [])
    (hpos : ∀ x ∈ pv, 0 < x) :
    ∃ m, maxDrawdownF (pv.map some) = some m ∧
      (∀ i, i < pv.length → m ≤ specDrawdown pv i) ∧
      (∃ i, i < pv.length ∧ m = specDrawdown pv i) ∧
      m ≤ 0 ∧
      (m = 0 ↔ ∀ i, i + 1 < pv.length → pv.getD i 0 ≤ pv.getD (i + 1) 0) := by
  obtain ⟨n, hn⟩ : ∃ n, pv.length = n + 1 := by
    rcases pv with _ | ⟨hd, t⟩
    · exact absurd rfl hne
    · exact ⟨t.length, rfl⟩
  have hval : maxDrawdownF (pv.map some) =
      some (((List.range n).map fun j => specDrawdown pv (j + 1)).foldl min
        (specDrawdown pv 0)) := by
    unfold maxDrawdownF
    rw [drawdownList_map_some pv hpos, hn]
    exact minSkipna_range_map (specDrawdown pv) n
  have hforall : ∀ i, i < pv.length →
      ((List.range n).map fun j => specDrawdown pv (j + 1)).foldl min
        (specDrawdown pv 0) ≤ specDrawdown pv i := by
    intro i hi
    cases i with
    | zero => exact foldl_min_init _ _
    | succ j =>
        apply foldl_min_mem
        exact List.mem_map.mpr ⟨j, List.mem_range.mpr (by omega), rfl⟩
  have hex : ∃ i, i < pv.length ∧
      ((List.range n).map fun j => specDrawdown pv (j + 1)).foldl min
        (specDrawdown pv 0) = specDrawdown pv i := by
    rcases foldl_min_choice ((List.range n).map fun j => specDrawdown pv (j + 1))
        (specDrawdown pv 0) with he | hm
    · exact ⟨0, by omega, he⟩
    · obtain ⟨j, hj, hje⟩ := List.mem_map.mp hm
      exact ⟨j + 1, by rw [hn]; simpa using List.mem_range.mp hj, hje.symm⟩
  have hle : ((List.range n).map fun j => specDrawdown pv (j + 1)).foldl min
      (specDrawdown pv 0) ≤ 0 := by
    calc _ ≤ specDrawdown pv 0 := hforall 0 (by omega)
      _ = 0 := specDrawdown_zero pv hne
  refine ⟨_, hval, hforall, hex, hle, ?_, ?_⟩
  · intro hm0 i hi
    have hz : ∀ k, k < pv.length → specDrawdown pv k = 0 := by
      intro k hk
      have hk1 := specDrawdown_nonpos pv k hk hpos
      have hk2 := hforall k hk
      rw [hm0] at hk2
      linarith
    have hpk : ∀ k, k < pv.length → pv.getD k 0 = specRunningMax pv k :=
      fun k hk => specDrawdown_eq_zero_imp pv k hk hpos (hz k hk)
    calc pv.getD i 0 = specRunningMax pv i := hpk i (by omega)
      _ ≤ specRunningMax pv (i + 1) := by
          rw [specRunningMax_succ pv i hi]
          exact le_max_left _ _
      _ = pv.getD (i + 1) 0 := (hpk (i + 1) hi).symm
  · intro hmono
    have hz : ∀ k, k < pv.length → specDrawdown pv k = 0 := by
      intro k hk
      unfold specDrawdown
      rw [specRunningMax_eq_of_monotone pv hne hmono k hk]
      rw [sub_self, zero_div]
    obtain ⟨i, hi, he⟩ := hex
    rw [he, hz i hi]

/-- Witness for the drawdown bound on a concrete positive series. -/
theorem max_drawdown_bound_witness :
    ∃ m, maxDrawdownF (([100, 110, 99, 121] : List ℚ).map some) = some m ∧
      (∀ i, i < ([100, 110, 99, 121] : List ℚ).length →
        m ≤ specDrawdown [100, 110, 99, 121] i) ∧
      (∃ i, i < ([100, 110, 99, 121] : List ℚ).length ∧
        m = specDrawdown [100, 110, 99, 121] i) ∧
      m ≤ 0 ∧
      (m = 0 ↔ ∀ i, i + 1 < ([100, 110, 99, 121] : List ℚ).length →
        ([100, 110, 99, 121] : List ℚ).getD i 0 ≤
          ([100, 110, 99, 121] : List ℚ).getD (i + 1) 0) :=
  max_drawdown_bound [100, 110, 99, 121] (by simp) (by norm_num)

/-- C2 counterexample: on a length-1 price series `backtest` raises
nothing at all — it completes and hands back metrics whose total return
is NaN, the silent-NaN outcome the claim rules out. -/
theorem insufficient_data_error_never_raised :
    (maBacktest 2 3 [5] 10000 (1 / 1000)).map Metrics.total_return =
      .ok none := by
  rfl

/-- C2 amended: no `InsufficientDataError` exists.  A length-0 series
makes `backtest` crash with an unstructured `IndexError` (from
`Cumulative_Returns.iloc[-1]`), and a length-1 series produces a silent
NaN `total_return` with no exception, for every window pair, capital and
commission. -/
theorem insufficient_data_actual_behavior (s l : ℕ) (cap comm c : ℚ) :
    maBacktest s l [] cap comm = .error .indexError ∧
    (maBacktest s l [c] cap comm).map Metrics.total_return = .ok none :=
  ⟨rfl, rfl⟩

/-- Witness for the first-row theorem at a concrete series. -/
theorem first_row_nan_strategy_defined_buyhold_witness :
    strategyReturnNet [10, 11] [0, 1] (1 / 1000) 0 = none ∧
    (cumulativeReturns [10, 11] [0, 1] (1 / 1000))[0]? = some none ∧
    (portfolioValue [10, 11] [0, 1] (1 / 1000) 10000)[0]? = some none ∧
    (buyholdValue [10, 11] 10000)[0]? = some 10000 :=
  first_row_nan_strategy_defined_buyhold [10, 11] [0, 1] (1 / 1000) 10000
    (by decide)

end Stonks
